import Mathlib

/-!
Shallow embedding of the data-preparation and evaluation pipeline of the
GBDT flight-delay notebook: cleaner, labeler, categorical encoder, sampler,
train/test splitter and the rank-based ROC-AUC evaluator, together with the
two evaluation helpers of the notebook.

Stages whose behaviour lives in third-party libraries (pandas `sample`,
`dropna`, `cat.codes`, scikit-learn `train_test_split`, `roc_auc_score`) are
modelled from the specification contract, as noted on each definition; the
rest is translated directly from the notebook cells.
-/

namespace GBDT

/-- Modelled from the spec: the Cleaner contract for the notebook call
`data.dropna(inplace=True)` (pandas code, not in this repository) removes
every record containing a missing value in any field. A record is a list of
optional cell values, `none` being a missing value. -/
def dropna {α : Type} (data : List (List (Option α))) : List (List (Option α)) :=
  data.filter (fun r => r.all (fun c => c.isSome))

/-- Labeler from the notebook cell that binarizes ARRIVAL_DELAY: a delay value
`d` becomes `1` when `d > 10` and `0` otherwise. -/
def delayLabel (d : ℚ) : ℤ :=
  if d > 10 then 1 else 0

/-- Labeler applied to the whole ARRIVAL_DELAY column. -/
def labelColumn (col : List ℚ) : List ℤ :=
  col.map delayLabel

/-- Modelled from the spec: pandas category codes (not in this repository) fix
a canonical ordering over the distinct observed values at encode time; the
notebook then adds 1, so codes start at 1. Here the canonical order is the
order of `List.dedup` over the column. -/
def codeOf (col : List String) (v : String) : ℕ :=
  col.dedup.indexOf v + 1

/-- Encoding loop from the notebook: each categorical column is replaced,
value by value, by its code. -/
def encodeColumn (col : List String) : List ℕ :=
  col.map (codeOf col)

/-- Column list of the notebook's encoding loop. -/
def cols : List String :=
  ["AIRLINE", "FLIGHT_NUMBER", "DESTINATION_AIRPORT", "ORIGIN_AIRPORT"]

/-- Categorical feature names the notebook passes to the LightGBM trainer. -/
def cate_features_name : List String :=
  ["MONTH", "DAY", "DAY_OF_WEEK", "AIRLINE", "DESTINATION_AIRPORT", "ORIGIN_AIRPORT"]

/-- Rows of a dataset selected by a list of positional indices. -/
def selectRows {α : Type} (data : List α) (ix : List ℕ) : List α :=
  ix.filterMap (fun i => data[i]?)

/-- Modelled from the spec: the Sampler contract returns round(f x row count)
rows for fraction f. -/
def sampleCount (f : ℚ) (n : ℕ) : ℕ :=
  (round (f * n)).toNat

/-- Modelled from the spec: pandas `sample(frac, random_state)` (not in this
repository) selects the subset through a seeded pseudo-random permutation of
the row indices, here passed explicitly as `perm`. -/
def sample {α : Type} (perm : List ℕ) (f : ℚ) (data : List α) : List α :=
  selectRows data (perm.take (sampleCount f data.length))

/-- Modelled from the spec: the Splitter contract sets the test partition size
to round(0.25 x row count). -/
def testCount (n : ℕ) : ℕ :=
  (round ((1 / 4 : ℚ) * n)).toNat

/-- Modelled from the spec: scikit-learn `train_test_split` with a fixed seed
(not in this repository) partitions the row indices by a seeded permutation,
the test block first. Returns (train indices, test indices). -/
def splitIndices (perm : List ℕ) (n : ℕ) : List ℕ × List ℕ :=
  (perm.drop (testCount n), perm.take (testCount n))

/-- Row-level train/test split: (train rows, test rows) selected by the
partitioned indices. -/
def train_test_split {α : Type} (perm : List ℕ) (data : List α) : List α × List α :=
  (selectRows data (splitIndices perm data.length).1,
   selectRows data (splitIndices perm data.length).2)

/-- Pipeline order as in the notebook: the encoding cell runs before the
train/test split cell, so the splitter receives the already encoded column. -/
def prepareAndSplit (perm : List ℕ) (col : List String) : List ℕ × List ℕ :=
  train_test_split perm (encodeColumn col)

/-- Contribution of one (positive score, negative score) pair to the
rank-based AUC: 1 when the positive outranks the negative, one half on a tie,
0 otherwise. -/
def scorePair (a b : ℚ) : ℚ :=
  if b < a then 1 else if a = b then 1 / 2 else 0

/-- Label/score pairs carrying a positive true label. -/
def posPairs (y : List Bool) (s : List ℚ) : List (Bool × ℚ) :=
  (y.zip s).filter (fun p => p.1)

/-- Label/score pairs carrying a negative true label. -/
def negPairs (y : List Bool) (s : List ℚ) : List (Bool × ℚ) :=
  (y.zip s).filter (fun p => !p.1)

/-- Numerator of the rank-based AUC: total contribution over all
positive/negative pairs. -/
def aucNum (y : List Bool) (s : List ℚ) : ℚ :=
  ((posPairs y s).map (fun p => ((negPairs y s).map (fun q => scorePair p.2 q.2)).sum)).sum

/-- Modelled from the spec: `sklearn.metrics.roc_auc_score` (not in this
repository) computes the probability that a uniformly random positive-labeled
example outranks a uniformly random negative one, ties counting one half, and
fails when the true labels hold a single class. -/
def rocAucScore (y : List Bool) (s : List ℚ) : Except String ℚ :=
  if (posPairs y s).length = 0 ∨ (negPairs y s).length = 0 then
    Except.error "Only one class present in y_true. ROC AUC score is not defined in that case."
  else
    Except.ok (aucNum y s / ((posPairs y s).length * (negPairs y s).length))

/-- External boosted-model interface as the notebook uses it: XGBoost offers a
two-column class-probability matrix per feature matrix, LightGBM a raw score
per row. -/
structure GBModel (F : Type) where
  predict_proba : F → List (ℚ × ℚ)
  predict : F → List ℚ

/-- Second column of the class-probability matrix, the notebook's
`predict_proba(X)[:,1]`. -/
def probaCol1 {F : Type} (m : GBModel F) (X : F) : List ℚ :=
  (m.predict_proba X).map Prod.snd

/-- Evaluation helper `auc` from the notebook: the true labels are the
captured y_train and y_test vectors, not values derived from the feature
matrices it receives. -/
def auc {F : Type} (y_train y_test : List Bool) (m : GBModel F) (xTr xTe : F) :
    Except String ℚ × Except String ℚ :=
  (rocAucScore y_train (probaCol1 m xTr), rocAucScore y_test (probaCol1 m xTe))

/-- Evaluation helper `auc2` from the notebook, using raw `predict` scores. -/
def auc2 {F : Type} (y_train y_test : List Bool) (m : GBModel F) (train tst : F) :
    Except String ℚ × Except String ℚ :=
  (rocAucScore y_train (m.predict train), rocAucScore y_test (m.predict tst))

/-- Concrete model over score-vector features: the probability of the positive
class is the feature value itself. Used to exhibit label/matrix misalignment. -/
def scoreModel : GBModel (List ℚ) :=
  ⟨fun X => X.map (fun v => (1 - v, v)), fun X => X⟩

/-! Helper lemmas shared by the claim theorems. -/

theorem selectRows_range {α : Type} (l : List α) :
    selectRows l (List.range l.length) = l := by
  induction l with
  | nil => rfl
  | cons a l ih =>
    show selectRows (a :: l) (List.range (l.length + 1)) = a :: l
    rw [List.range_succ_eq_map]
    show List.filterMap (fun i => (a :: l)[i]?) (0 :: (List.range l.length).map Nat.succ)
      = a :: l
    rw [List.filterMap_cons, List.filterMap_map]
    have hcomp : ((fun i => (a :: l)[i]?) ∘ Nat.succ) = fun i => l[i]? := by
      funext i
      simp
    rw [hcomp]
    simp only [List.getElem?_cons_zero]
    exact congrArg (List.cons a) ih

theorem selectRows_perm_of_perm {α : Type} (l : List α) (p : List ℕ)
    (hp : p.Perm (List.range l.length)) : (selectRows l p).Perm l := by
  have h := hp.filterMap (fun i => l[i]?)
  have hr : List.filterMap (fun i => l[i]?) (List.range l.length) = l := selectRows_range l
  rw [hr] at h
  exact h

theorem selectRows_length {α : Type} (l : List α) (ix : List ℕ)
    (h : ∀ i ∈ ix, i < l.length) : (selectRows l ix).length = ix.length := by
  induction ix with
  | nil => rfl
  | cons i ix ih =>
    have hi : i < l.length := h i (List.mem_cons_self i ix)
    have hrest := ih (fun j hj => h j (List.mem_cons_of_mem i hj))
    simp only [selectRows, List.filterMap_cons, List.getElem?_eq_getElem hi,
      List.length_cons] at hrest ⊢
    omega

theorem round_le_round_q (x y : ℚ) (h : x ≤ y) : round x ≤ round y := by
  rw [round_eq, round_eq]
  exact Int.floor_mono (by linarith)

theorem sampleCount_le (f : ℚ) (n : ℕ) (hf1 : f ≤ 1) : sampleCount f n ≤ n := by
  have hn : (0 : ℚ) ≤ (n : ℚ) := Nat.cast_nonneg n
  have h1 : round (f * (n : ℚ)) ≤ round ((n : ℚ)) :=
    round_le_round_q _ _ (by nlinarith)
  rw [round_natCast] at h1
  exact Int.toNat_le.mpr h1

theorem testCount_le (n : ℕ) : testCount n ≤ n := by
  have h := sampleCount_le (1 / 4 : ℚ) n (by norm_num)
  simpa [sampleCount, testCount] using h

theorem perm_length_eq {n : ℕ} {perm : List ℕ} (hp : perm.Perm (List.range n)) :
    perm.length = n := by
  rw [hp.length_eq, List.length_range]

theorem perm_mem_lt {n : ℕ} {perm : List ℕ} (hp : perm.Perm (List.range n))
    {i : ℕ} (hi : i ∈ perm) : i < n :=
  List.mem_range.mp (hp.mem_iff.mp hi)

theorem split_union_perm {α : Type} (d : List α) (perm : List ℕ)
    (hp : perm.Perm (List.range d.length)) :
    ((train_test_split perm d).2 ++ (train_test_split perm d).1).Perm d := by
  have hsel : selectRows d (perm.take (testCount d.length))
      ++ selectRows d (perm.drop (testCount d.length)) = selectRows d perm := by
    rw [selectRows, selectRows, selectRows, ← List.filterMap_append,
      List.take_append_drop]
  show (selectRows d (perm.take (testCount d.length))
      ++ selectRows d (perm.drop (testCount d.length))).Perm d
  rw [hsel]
  exact selectRows_perm_of_perm d perm hp

theorem split_raw_union_perm {α : Type} (d : List α) (perm : List ℕ)
    (hp : perm.Perm (List.range d.length)) :
    (selectRows d (splitIndices perm d.length).1
      ++ selectRows d (splitIndices perm d.length).2).Perm d := by
  have h := split_union_perm d perm hp
  exact (List.perm_append_comm.trans h)

/-! Claim theorems. -/

/-- Claim C1: for every dataset and seeded permutation of its row indices, the
splitter puts every row index in exactly one of the test/train partitions, the
test partition has round(0.25 x row count) indices, and the test and train
rows together are a permutation of the full dataset. -/
theorem splitter_partitions {α : Type} (data : List α) (perm : List ℕ)
    (hp : perm.Perm (List.range data.length)) :
    (∀ i < data.length,
      (i ∈ (splitIndices perm data.length).2 ∧ i ∉ (splitIndices perm data.length).1) ∨
      (i ∈ (splitIndices perm data.length).1 ∧ i ∉ (splitIndices perm data.length).2)) ∧
    (splitIndices perm data.length).2.length = testCount data.length ∧
    ((train_test_split perm data).2 ++ (train_test_split perm data).1).Perm data := by
  have hlen : perm.length = data.length := perm_length_eq hp
  have hnd : perm.Nodup := hp.nodup_iff.mpr (List.nodup_range data.length)
  have hnd2 : (perm.take (testCount data.length)
      ++ perm.drop (testCount data.length)).Nodup := by
    rw [List.take_append_drop]
    exact hnd
  obtain ⟨-, -, hdisj⟩ := List.nodup_append.mp hnd2
  refine ⟨?_, ?_, split_union_perm data perm hp⟩
  · intro i hi
    have hmem : i ∈ perm.take (testCount data.length)
        ++ perm.drop (testCount data.length) := by
      rw [List.take_append_drop]
      exact hp.mem_iff.mpr (List.mem_range.mpr hi)
    rcases List.mem_append.mp hmem with hte | htr
    · exact Or.inl ⟨hte, fun htr => hdisj hte htr⟩
    · exact Or.inr ⟨htr, fun hte => hdisj hte htr⟩
  · show (perm.take (testCount data.length)).length = testCount data.length
    exact List.length_take_of_le (by rw [hlen]; exact testCount_le data.length)

/-- Witness for C1 at a concrete three-row dataset and permutation. -/
theorem splitter_partitions_witness :
    (∀ i < 3,
      (i ∈ (splitIndices [2, 0, 1] 3).2 ∧ i ∉ (splitIndices [2, 0, 1] 3).1) ∨
      (i ∈ (splitIndices [2, 0, 1] 3).1 ∧ i ∉ (splitIndices [2, 0, 1] 3).2)) ∧
    (splitIndices [2, 0, 1] 3).2.length = testCount 3 ∧
    ((train_test_split [2, 0, 1] ([10, 20, 30] : List ℕ)).2
      ++ (train_test_split [2, 0, 1] ([10, 20, 30] : List ℕ)).1).Perm [10, 20, 30] :=
  splitter_partitions ([10, 20, 30] : List ℕ) [2, 0, 1] (by decide)

/-- Claim C2: a delay value is labeled 1 exactly when it exceeds 10, over the
whole rational domain including negatives, and the boundary value 10 itself is
labeled 0. -/
theorem labeler_threshold :
    (∀ d : ℚ, delayLabel d = 1 ↔ d > 10) ∧ delayLabel 10 = 0 := by
  constructor
  · intro d
    by_cases h : d > 10 <;> simp [delayLabel, h]
  · simp [delayLabel]

/-- Witness for C2: the delay 11 is labeled 1 and the boundary delay 10 is
labeled 0. -/
theorem labeler_threshold_witness : delayLabel 11 = 1 ∧ delayLabel 10 = 0 :=
  ⟨(labeler_threshold.1 11).mpr (by norm_num), labeler_threshold.2⟩

/-- Claim C3: the encoder gives every value of a column a code between 1 and
the number of distinct values, the codes separate distinct values, every code
in that range is used, and re-running on the same column reproduces the same
assignment. -/
theorem encoder_codes (col : List String) :
    (∀ v ∈ col, 1 ≤ codeOf col v ∧ codeOf col v ≤ col.dedup.length) ∧
    (∀ v ∈ col, ∀ w ∈ col, codeOf col v = codeOf col w → v = w) ∧
    (∀ c, 1 ≤ c → c ≤ col.dedup.length → ∃ v ∈ col, codeOf col v = c) ∧
    (∀ col', col' = col → encodeColumn col' = encodeColumn col) := by
  refine ⟨?_, ?_, ?_, ?_⟩
  · intro v hv
    have hvd : v ∈ col.dedup := List.mem_dedup.mpr hv
    have hlt : col.dedup.indexOf v < col.dedup.length := List.indexOf_lt_length.mpr hvd
    exact ⟨Nat.le_add_left 1 _, by unfold codeOf; omega⟩
  · intro v hv w hw h
    have hvd : v ∈ col.dedup := List.mem_dedup.mpr hv
    have hwd : w ∈ col.dedup := List.mem_dedup.mpr hw
    have : col.dedup.indexOf v = col.dedup.indexOf w := by
      unfold codeOf at h
      omega
    exact (List.indexOf_inj hvd hwd).mp this
  · intro c hc1 hc2
    have hlt : c - 1 < col.dedup.length := by omega
    refine ⟨col.dedup[c - 1], ?_, ?_⟩
    · exact List.mem_dedup.mp (List.getElem_mem hlt)
    · unfold codeOf
      rw [List.indexOf_getElem (List.nodup_dedup col) (c - 1) hlt]
      omega
  · intro col' h
    rw [h]

/-- Witness for C3 at a concrete column with two distinct values. -/
theorem encoder_codes_witness :
    (1 ≤ codeOf ["b", "a", "b"] "a" ∧
      codeOf ["b", "a", "b"] "a" ≤ (List.dedup ["b", "a", "b"]).length) ∧
    (∃ v ∈ ["b", "a", "b"], codeOf ["b", "a", "b"] v = 2) :=
  ⟨(encoder_codes ["b", "a", "b"]).1 "a" (by decide),
   (encoder_codes ["b", "a", "b"]).2.2.1 2 (by decide) (by decide)⟩

/-- Claim C4: the notebook encodes the full column before splitting: the two
partitions together are a permutation of the encoded full column, the raw rows
behind the two partitions are a permutation of the full raw column, and the
vocabulary the encoder fixed (the distinct values of the full column) is
exactly the set of values occurring across the eventual train and test
partitions. -/
theorem encoder_before_splitter (col : List String) (perm : List ℕ)
    (hp : perm.Perm (List.range col.length)) :
    ((prepareAndSplit perm col).2 ++ (prepareAndSplit perm col).1).Perm (encodeColumn col) ∧
    (selectRows col (splitIndices perm col.length).1
      ++ selectRows col (splitIndices perm col.length).2).Perm col ∧
    (∀ v, v ∈ col.dedup ↔
      v ∈ selectRows col (splitIndices perm col.length).1
        ++ selectRows col (splitIndices perm col.length).2) := by
  have hlen : (encodeColumn col).length = col.length := List.length_map col (codeOf col)
  have hp' : perm.Perm (List.range (encodeColumn col).length) := by rw [hlen]; exact hp
  have hraw := split_raw_union_perm col perm hp
  refine ⟨?_, hraw, ?_⟩
  · exact split_union_perm (encodeColumn col) perm hp'
  · intro v
    rw [List.mem_dedup]
    exact ⟨fun hv => hraw.mem_iff.mpr hv, fun hv => hraw.mem_iff.mp hv⟩

/-- Witness for C4 at a concrete three-row column and permutation. -/
theorem encoder_before_splitter_witness :
    ((prepareAndSplit [2, 0, 1] ["a", "b", "a"]).2
      ++ (prepareAndSplit [2, 0, 1] ["a", "b", "a"]).1).Perm (encodeColumn ["a", "b", "a"]) ∧
    (selectRows ["a", "b", "a"] (splitIndices [2, 0, 1] 3).1
      ++ selectRows ["a", "b", "a"] (splitIndices [2, 0, 1] 3).2).Perm ["a", "b", "a"] ∧
    (∀ v, v ∈ (List.dedup ["a", "b", "a"]) ↔
      v ∈ selectRows ["a", "b", "a"] (splitIndices [2, 0, 1] 3).1
        ++ selectRows ["a", "b", "a"] (splitIndices [2, 0, 1] 3).2) :=
  encoder_before_splitter ["a", "b", "a"] [2, 0, 1] (by decide)

/-- Claim C5: for a fraction f in (0,1] and a seeded permutation, the sampler
returns exactly round(f x row count) rows, each output row is one of the input
rows (sub-multiset), and equal arguments give exactly the same output rows. -/
theorem sampler_count_and_det {α : Type} (data : List α) (perm : List ℕ) (f : ℚ)
    (hp : perm.Perm (List.range data.length)) (hf0 : 0 < f) (hf1 : f ≤ 1) :
    (sample perm f data).length = (round (f * (data.length : ℚ))).toNat ∧
    (sample perm f data).Subperm data ∧
    (∀ perm' f' data', perm' = perm → f' = f → data' = data →
      sample perm' f' data' = sample perm f data) := by
  have hlen : perm.length = data.length := perm_length_eq hp
  have htle : sampleCount f data.length ≤ data.length := sampleCount_le f data.length hf1
  refine ⟨?_, ?_, ?_⟩
  · show (selectRows data (perm.take (sampleCount f data.length))).length
      = (round (f * (data.length : ℚ))).toNat
    rw [selectRows_length data _ (fun i hi =>
      perm_mem_lt hp (List.mem_of_mem_take hi))]
    rw [List.length_take_of_le (by rw [hlen]; exact htle)]
    rfl
  · have hsub : (perm.take (sampleCount f data.length)).Sublist perm :=
      List.take_sublist _ _
    have h1 : (sample perm f data).Sublist (selectRows data perm) :=
      hsub.filterMap (fun i => data[i]?)
    exact h1.subperm.trans (selectRows_perm_of_perm data perm hp).subperm
  · intro perm' f' data' h1 h2 h3
    rw [h1, h2, h3]

/-- Witness for C5 at a concrete two-row dataset, fraction one half. -/
theorem sampler_count_and_det_witness :
    (sample [1, 0] (1 / 2) ([5, 7] : List ℕ)).length
      = (round ((1 / 2 : ℚ) * ((2 : ℕ) : ℚ))).toNat ∧
    (sample [1, 0] (1 / 2) ([5, 7] : List ℕ)).Subperm [5, 7] :=
  ⟨(sampler_count_and_det ([5, 7] : List ℕ) [1, 0] (1 / 2) (by decide) (by norm_num)
      (by norm_num)).1,
   (sampler_count_and_det ([5, 7] : List ℕ) [1, 0] (1 / 2) (by decide) (by norm_num)
      (by norm_num)).2.1⟩

/-- Membership of a label value in the label vector matches the existence of a
zipped pair carrying it, when labels and scores have equal length. -/
theorem mem_iff_zip_fst (y : List Bool) (s : List ℚ) (h : y.length = s.length)
    (b : Bool) : (∃ p ∈ y.zip s, p.1 = b) ↔ b ∈ y := by
  constructor
  · rintro ⟨p, hp, rfl⟩
    have hm : p.1 ∈ (y.zip s).map Prod.fst := List.mem_map_of_mem Prod.fst hp
    rwa [List.map_fst_zip y s h.le] at hm
  · intro hb
    have hm : b ∈ (y.zip s).map Prod.fst := by
      rw [List.map_fst_zip y s h.le]
      exact hb
    obtain ⟨p, hp, hpe⟩ := List.mem_map.mp hm
    exact ⟨p, hp, hpe⟩

/-- Claim C6: with aligned labels and scores, the evaluator returns a value
exactly when both label classes occur, and an error exactly when the labels
hold a single class. -/
theorem evaluator_degenerate (y : List Bool) (s : List ℚ) (h : y.length = s.length) :
    ((∃ v, rocAucScore y s = Except.ok v) ↔ (true ∈ y ∧ false ∈ y)) ∧
    ((∃ e, rocAucScore y s = Except.error e) ↔ ¬(true ∈ y ∧ false ∈ y)) := by
  have hpos : (posPairs y s).length ≠ 0 ↔ true ∈ y := by
    rw [← mem_iff_zip_fst y s h true]
    rw [Ne, List.length_eq_zero]
    constructor
    · intro hne
      obtain ⟨p, hp⟩ := List.exists_mem_of_ne_nil _ hne
      obtain ⟨hpz, hpt⟩ := List.mem_filter.mp hp
      exact ⟨p, hpz, hpt⟩
    · rintro ⟨p, hp, hpt⟩ hnil
      have : p ∈ posPairs y s := List.mem_filter.mpr ⟨hp, hpt⟩
      rw [hnil] at this
      exact absurd this (List.not_mem_nil p)
  have hneg : (negPairs y s).length ≠ 0 ↔ false ∈ y := by
    rw [← mem_iff_zip_fst y s h false]
    rw [Ne, List.length_eq_zero]
    constructor
    · intro hne
      obtain ⟨p, hp⟩ := List.exists_mem_of_ne_nil _ hne
      obtain ⟨hpz, hpt⟩ := List.mem_filter.mp hp
      exact ⟨p, hpz, by simpa using hpt⟩
    · rintro ⟨p, hp, hpt⟩ hnil
      have : p ∈ negPairs y s := List.mem_filter.mpr ⟨hp, by simp [hpt]⟩
      rw [hnil] at this
      exact absurd this (List.not_mem_nil p)
  have hcond : ((posPairs y s).length = 0 ∨ (negPairs y s).length = 0)
      ↔ ¬(true ∈ y ∧ false ∈ y) := by
    rw [not_and_or, ← hpos, ← hneg]
    simp [Ne, not_not]
  by_cases hc : (posPairs y s).length = 0 ∨ (negPairs y s).length = 0
  · have hno : ¬(true ∈ y ∧ false ∈ y) := hcond.mp hc
    have herr : rocAucScore y s
        = Except.error "Only one class present in y_true. ROC AUC score is not defined in that case." := by
      unfold rocAucScore
      rw [if_pos hc]
    constructor
    · constructor
      · rintro ⟨v, hv⟩
        rw [herr] at hv
        exact absurd hv (by simp)
      · intro hb
        exact absurd hb hno
    · exact iff_of_true ⟨_, herr⟩ hno
  · have hb : true ∈ y ∧ false ∈ y := not_not.mp (fun hnb => hc (hcond.mpr hnb))
    have hok : rocAucScore y s
        = Except.ok (aucNum y s
          / ((posPairs y s).length * (negPairs y s).length)) := by
      unfold rocAucScore
      rw [if_neg hc]
    constructor
    · exact iff_of_true ⟨_, hok⟩ hb
    · constructor
      · rintro ⟨e, he⟩
        rw [hok] at he
        exact absurd he (by simp)
      · intro hnb
        exact absurd hb hnb

/-- Witness for C6: with both classes present the evaluator returns a value. -/
theorem evaluator_degenerate_witness :
    ∃ v, rocAucScore [true, false] [1, 0] = Except.ok v :=
  (evaluator_degenerate [true, false] [1, 0] rfl).1.mpr (by decide)

theorem posPairs_map (y : List Bool) (s : List ℚ) (g : ℚ → ℚ) :
    posPairs y (s.map g) = (posPairs y s).map (Prod.map id g) := by
  unfold posPairs
  rw [List.zip_map_right, List.filter_map]
  have hcomp : ((fun p : Bool × ℚ => p.1) ∘ Prod.map id g)
      = fun p : Bool × ℚ => p.1 := by
    funext p
    cases p
    rfl
  rw [hcomp]

theorem negPairs_map (y : List Bool) (s : List ℚ) (g : ℚ → ℚ) :
    negPairs y (s.map g) = (negPairs y s).map (Prod.map id g) := by
  unfold negPairs
  rw [List.zip_map_right, List.filter_map]
  have hcomp : ((fun p : Bool × ℚ => !p.1) ∘ Prod.map id g)
      = fun p : Bool × ℚ => !p.1 := by
    funext p
    cases p
    rfl
  rw [hcomp]

theorem scorePair_strictMono (g : ℚ → ℚ) (hg : StrictMono g) (a b : ℚ) :
    scorePair (g a) (g b) = scorePair a b := by
  unfold scorePair
  by_cases h1 : b < a
  · rw [if_pos (hg h1), if_pos h1]
  · rw [if_neg (fun hc => h1 (hg.lt_iff_lt.mp hc)), if_neg h1]
    by_cases h2 : a = b
    · rw [if_pos (by rw [h2]), if_pos h2]
    · rw [if_neg (fun hc => h2 (hg.injective hc)), if_neg h2]

theorem aucNum_map (y : List Bool) (s : List ℚ) (g : ℚ → ℚ) (hg : StrictMono g) :
    aucNum y (s.map g) = aucNum y s := by
  unfold aucNum
  rw [posPairs_map, negPairs_map]
  simp only [List.map_map, Function.comp_def, Prod.map_snd,
    scorePair_strictMono g hg]

/-- Claim C7: for labels containing both classes, the evaluator's AUC is
unchanged by any strictly increasing transform of the scores. -/
theorem auc_strictMono_invariant (y : List Bool) (s : List ℚ) (g : ℚ → ℚ)
    (hy : true ∈ y ∧ false ∈ y) (hg : StrictMono g) :
    rocAucScore y (s.map g) = rocAucScore y s := by
  unfold rocAucScore
  rw [posPairs_map, negPairs_map, List.length_map, List.length_map,
    aucNum_map y s g hg]

/-- Witness for C7 at concrete labels, scores and the transform 2x + 1. -/
theorem auc_strictMono_invariant_witness :
    rocAucScore [true, false] ([3, 1].map (fun x => 2 * x + 1))
      = rocAucScore [true, false] [3, 1] :=
  auc_strictMono_invariant [true, false] [3, 1] (fun x => 2 * x + 1) (by decide)
    (fun a b hab => by dsimp only; linarith)

/-- Claim C9: both evaluation helpers compare the scores on whatever feature
matrices they receive against the captured y_train and y_test vectors, for all
matrices; consequently, on a matrix that is not the training matrix of the
split, the computed value differs from the AUC against that matrix's own true
labels. -/
theorem evaluator_global_labels :
    (∀ (F : Type) (yTr yTe : List Bool) (m : GBModel F) (A B : F),
      auc yTr yTe m A B
          = (rocAucScore yTr (probaCol1 m A), rocAucScore yTe (probaCol1 m B)) ∧
      auc2 yTr yTe m A B
          = (rocAucScore yTr (m.predict A), rocAucScore yTe (m.predict B))) ∧
    (auc [true, false] [true, false] scoreModel [0, 1] [0, 1]).1
      ≠ rocAucScore [false, true] (probaCol1 scoreModel [0, 1]) := by
  refine ⟨fun F yTr yTe m A B => ⟨rfl, rfl⟩, ?_⟩
  intro h
  have h1 : (auc [true, false] [true, false] scoreModel [0, 1] [0, 1]).1
      = Except.ok 0 := by
    norm_num [auc, probaCol1, scoreModel, rocAucScore, aucNum, posPairs, negPairs,
      scorePair]
  have h2 : rocAucScore [false, true] (probaCol1 scoreModel [0, 1])
      = Except.ok 1 := by
    norm_num [probaCol1, scoreModel, rocAucScore, aucNum, posPairs, negPairs,
      scorePair]
  rw [h1, h2] at h
  exact absurd h (by simp)

/-- Witness for C9 at a concrete model, labels and feature matrix. -/
theorem evaluator_global_labels_witness :
    auc [true] [true] scoreModel [1] [1]
      = (rocAucScore [true] (probaCol1 scoreModel [1]),
         rocAucScore [true] (probaCol1 scoreModel [1])) :=
  (evaluator_global_labels.1 (List ℚ) [true] [true] scoreModel [1] [1]).1

/-- Claim C10: the set of columns the notebook encodes differs from the set it
declares categorical to the LightGBM trainer: FLIGHT_NUMBER is encoded but not
declared, while MONTH, DAY and DAY_OF_WEEK are declared but not encoded. -/
theorem encoded_vs_declared_mismatch :
    "FLIGHT_NUMBER" ∈ cols ∧ "FLIGHT_NUMBER" ∉ cate_features_name ∧
    "MONTH" ∈ cate_features_name ∧ "MONTH" ∉ cols ∧
    "DAY" ∈ cate_features_name ∧ "DAY" ∉ cols ∧
    "DAY_OF_WEEK" ∈ cate_features_name ∧ "DAY_OF_WEEK" ∉ cols ∧
    cols.toFinset ≠ cate_features_name.toFinset := by
  refine ⟨by decide, by decide, by decide, by decide, by decide, by decide,
    by decide, by decide, ?_⟩
  intro h
  have hm : "MONTH" ∈ cols.toFinset := by
    rw [h]
    decide
  exact absurd hm (by decide)

/-- Claim C8: the cleaner's output has no missing value in any cell, and is a
sublist of the input, so every output row is an unchanged input row. -/
theorem cleaner_drops_missing {α : Type} (data : List (List (Option α))) :
    (∀ r ∈ dropna data, ∀ c ∈ r, c.isSome = true) ∧
    (dropna data).Sublist data := by
  constructor
  · intro r hr c hc
    have hall := List.of_mem_filter hr
    exact List.all_eq_true.mp hall c hc
  · exact List.filter_sublist data

/-- Witness for C8 at a concrete dataset with one complete and one missing
row. -/
theorem cleaner_drops_missing_witness :
    (some (1 : ℤ)).isSome = true ∧
    (dropna [[some (1 : ℤ)], [none]]).Sublist [[some (1 : ℤ)], [none]] :=
  ⟨(cleaner_drops_missing [[some (1 : ℤ)], [none]]).1 [some 1] (by decide)
      (some 1) (by decide),
   (cleaner_drops_missing [[some (1 : ℤ)], [none]]).2⟩

end GBDT
